import Mathlib

/-!
# Verification of the finite-horizon Kelly betting simulator

Shallow embedding of `src/kelly_finite.py` (functions `kelly_fraction` and
`simulate_kelly_distribution`).  Real arithmetic is modelled exactly over `ℚ`.
The global numpy random generator is modelled as an abstract stream
`g : ℕ → ℚ` of uniform draws together with an explicit position counter:
`np.random.rand()` at position `pos` returns `g pos` and advances the counter.
Seeding (`np.random.seed`) fixes the stream, so determinism for a fixed seed
is the statement that the output is a function of the consumed prefix of the
stream.

`np.percentile` (default linear interpolation) on a sample `xs` sorts `xs`
ascending, forms the virtual index `h = (len-1) * q / 100`, and linearly
interpolates between the entries at `⌊h⌋` and `min (⌊h⌋+1) (len-1)`.
-/

namespace KellyFinite

/-- `kelly_fraction` from `src/kelly_finite.py`:
`f_k = (p * a - (1 - p) * b) / (a * b)`. -/
def kelly_fraction (p a b : ℚ) : ℚ :=
  (p * a - (1 - p) * b) / (a * b)

/-- The inner toss loop of `simulate_kelly_distribution`:
`for _ in range(n): if np.random.rand() < p: w *= (1 + a*f) else: w *= (1 - b*f)`.
Arguments: remaining tosses, current wealth `w`, current stream position.
Returns the wealth after the loop and the advanced stream position. -/
def tossLoop (g : ℕ → ℚ) (p a b f : ℚ) : ℕ → ℚ → ℕ → ℚ × ℕ
  | 0, w, pos => (w, pos)
  | Nat.succ k, w, pos =>
      if g pos < p then tossLoop g p a b f k (w * (1 + a * f)) (pos + 1)
      else tossLoop g p a b f k (w * (1 - b * f)) (pos + 1)

/-- The trial loop of `simulate_kelly_distribution`:
`for t in range(T): w = 1.0; <toss loop>; final_wealth[t] = w`.
Returns the list `final_wealth` (in trial order) and the advanced position. -/
def trialLoop (g : ℕ → ℚ) (p a b f : ℚ) (n : ℕ) : ℕ → ℕ → List ℚ × ℕ
  | 0, pos => ([], pos)
  | Nat.succ t, pos =>
      (((tossLoop g p a b f n 1 pos).1 ::
          (trialLoop g p a b f n t (tossLoop g p a b f n 1 pos).2).1),
        (trialLoop g p a b f n t (tossLoop g p a b f n 1 pos).2).2)

/-- The `final_wealth` array produced for one fraction `f`: the `T` final
wealth values of the trials, with the stream starting at `pos`. -/
def finalWealths (g : ℕ → ℚ) (p a b f : ℚ) (n T pos : ℕ) : List ℚ :=
  (trialLoop g p a b f n T pos).1

/-- Linear interpolation step of `np.percentile` (default method) on the
already sorted sample `s` of size `m` at virtual index `h`. -/
def interp (s : List ℚ) (m : ℕ) (h : ℚ) : ℚ :=
  s.getD (Int.toNat ⌊h⌋) 0 +
    (h - (Int.toNat ⌊h⌋ : ℚ)) *
      (s.getD (min (Int.toNat ⌊h⌋ + 1) (m - 1)) 0 - s.getD (Int.toNat ⌊h⌋) 0)

/-- `np.percentile(xs, q)` with the default linear-interpolation method:
sort ascending, take virtual index `(len-1) * q / 100`, interpolate. -/
def percentile (xs : List ℚ) (q : ℚ) : ℚ :=
  interp (xs.insertionSort (· ≤ ·)) xs.length
    (((xs.length - 1 : ℕ) : ℚ) * q / 100)

/-- The fraction loop of `simulate_kelly_distribution`: for each `f` in
`f_values`, run `T` trials of `n` tosses and record the three smoothed
percentile statistics
`((P5+P10+P15)/3, (P45+P50+P55)/3, (P85+P90+P95)/3)` of `final_wealth`.
Returns the list of statistic triples and the advanced stream position. -/
def fracLoop (g : ℕ → ℚ) (n : ℕ) (p : ℚ) (T : ℕ) (a b : ℚ) :
    List ℚ → ℕ → List (ℚ × ℚ × ℚ) × ℕ
  | [], pos => ([], pos)
  | f :: fs, pos =>
      (((percentile (finalWealths g p a b f n T pos) 5 +
            percentile (finalWealths g p a b f n T pos) 10 +
            percentile (finalWealths g p a b f n T pos) 15) / 3,
         (percentile (finalWealths g p a b f n T pos) 45 +
            percentile (finalWealths g p a b f n T pos) 50 +
            percentile (finalWealths g p a b f n T pos) 55) / 3,
         (percentile (finalWealths g p a b f n T pos) 85 +
            percentile (finalWealths g p a b f n T pos) 90 +
            percentile (finalWealths g p a b f n T pos) 95) / 3) ::
          (fracLoop g n p T a b fs (trialLoop g p a b f n T pos).2).1,
        (fracLoop g n p T a b fs (trialLoop g p a b f n T pos).2).2)

/-- `simulate_kelly_distribution(n, p, T, f_values, a, b, random_seed)` from
`src/kelly_finite.py`.  The seeded generator is the stream `g`, consumed from
position `0`.  The Python function returns `(f_values, p10s, p50s, p90s)`;
here the three statistic arrays are returned as a list of triples indexed
like `f_values` (the echoed `f_values` component carries no information). -/
def simulate_kelly_distribution (n : ℕ) (p : ℚ) (T : ℕ) (f_values : List ℚ)
    (a b : ℚ) (g : ℕ → ℚ) : List (ℚ × ℚ × ℚ) :=
  (fracLoop g n p T a b f_values 0).1

/-- A trial's wealth trajectory as the spec describes it: starts at `1.0`,
multiplied by `(1 + a*f)` on a win draw and `(1 - b*f)` on a loss draw, one
step per draw; the result is the final value. -/
def trialWealthSpec (a b f : ℚ) (draws : List Bool) : ℚ :=
  draws.foldl (fun w d => if d then w * (1 + a * f) else w * (1 - b * f)) 1

/-- The statistics as the spec describes them: each reported statistic is the
arithmetic mean of three adjacent empirical percentiles of the final wealth
sample — ranks 5/10/15 (low), 45/50/55 (mid), 85/90/95 (high). -/
def statsSpec (fw : List ℚ) : ℚ × ℚ × ℚ :=
  ((percentile fw 5 + percentile fw 10 + percentile fw 15) / 3,
   (percentile fw 45 + percentile fw 50 + percentile fw 55) / 3,
   (percentile fw 85 + percentile fw 90 + percentile fw 95) / 3)

/-- A concrete stream whose every draw is `9/10` (a loss whenever `p ≤ 9/10`),
used for concrete evaluations. -/
def gNine : ℕ → ℚ := fun _ => 9 / 10

example : tossLoop gNine (1/2) 1 1 2 1 1 0 = (-1, 1) := by
  norm_num [tossLoop, gNine]

example : percentile [3, 1, 2] 50 = 2 := by
  norm_num [percentile, interp, List.insertionSort, List.orderedInsert]

example : percentile [1, 2] 75 = 7/4 := by
  norm_num [percentile, interp, List.insertionSort, List.orderedInsert]

/-- The toss loop advances the stream position by exactly one per toss. -/
theorem tossLoop_snd (g : ℕ → ℚ) (p a b f : ℚ) :
    ∀ (j : ℕ) (w : ℚ) (pos : ℕ), (tossLoop g p a b f j w pos).2 = pos + j := by
  intro j
  induction j with
  | zero => intro w pos; simp [tossLoop]
  | succ m ih =>
      intro w pos
      by_cases h : g pos < p <;> simp [tossLoop, h, ih] <;> omega

/-- The toss loop only reads the stream on the window it consumes. -/
theorem tossLoop_congr (g₁ g₂ : ℕ → ℚ) (p a b f : ℚ) :
    ∀ (j : ℕ) (w : ℚ) (pos : ℕ),
      (∀ k, pos ≤ k → k < pos + j → g₁ k = g₂ k) →
      tossLoop g₁ p a b f j w pos = tossLoop g₂ p a b f j w pos := by
  intro j
  induction j with
  | zero => intro w pos _; simp [tossLoop]
  | succ m ih =>
      intro w pos hg
      have h0 : g₁ pos = g₂ pos := hg pos (Nat.le_refl _) (by omega)
      have hrest : ∀ k, pos + 1 ≤ k → k < (pos + 1) + m → g₁ k = g₂ k := by
        intro k h1 h2
        exact hg k (by omega) (by omega)
      by_cases h : g₂ pos < p
      · rw [tossLoop, tossLoop, if_pos (h0 ▸ h), if_pos h, ih _ _ hrest]
      · rw [tossLoop, tossLoop, if_neg (h0 ▸ h), if_neg h, ih _ _ hrest]

/-- The toss loop computes the fold the spec describes, over the Bernoulli
draws read off the stream window it consumes. -/
theorem tossLoop_fst_eq_foldl (g : ℕ → ℚ) (p a b f : ℚ) :
    ∀ (j : ℕ) (w : ℚ) (pos : ℕ),
      (tossLoop g p a b f j w pos).1 =
        ((List.range j).map fun k => decide (g (pos + k) < p)).foldl
          (fun w d => if d then w * (1 + a * f) else w * (1 - b * f)) w := by
  intro j
  induction j with
  | zero => intro w pos; simp [tossLoop]
  | succ m ih =>
      intro w pos
      rw [List.range_succ_eq_map, List.map_cons, List.foldl_cons, List.map_map]
      have harg : ((fun k => decide (g (pos + k) < p)) ∘ Nat.succ) =
          fun k => decide (g (pos + 1 + k) < p) := by
        funext k
        have hk : pos + Nat.succ k = pos + 1 + k := by omega
        simp [Function.comp_def, hk]
      rw [harg]
      by_cases h : g pos < p
      · rw [tossLoop, if_pos h, ih]
        simp [h]
      · rw [tossLoop, if_neg h, ih]
        simp [h]

/-- The trial loop produces one final wealth value per trial. -/
theorem trialLoop_length (g : ℕ → ℚ) (p a b f : ℚ) (n : ℕ) :
    ∀ (T pos : ℕ), (trialLoop g p a b f n T pos).1.length = T := by
  intro T
  induction T with
  | zero => intro pos; simp [trialLoop]
  | succ m ih => intro pos; simp [trialLoop, ih]

/-- The trial loop advances the stream position by `n` per trial. -/
theorem trialLoop_snd (g : ℕ → ℚ) (p a b f : ℚ) (n : ℕ) :
    ∀ (T pos : ℕ), (trialLoop g p a b f n T pos).2 = pos + T * n := by
  intro T
  induction T with
  | zero => intro pos; simp [trialLoop]
  | succ m ih =>
      intro pos
      rw [trialLoop, ih, tossLoop_snd, Nat.succ_mul]
      omega

/-- Trial `t` of the trial loop is the toss loop started at wealth `1` on the
`t`-th window of `n` stream positions. -/
theorem trialLoop_getD (g : ℕ → ℚ) (p a b f : ℚ) (n : ℕ) :
    ∀ (T pos t : ℕ), t < T →
      (trialLoop g p a b f n T pos).1.getD t 0 =
        (tossLoop g p a b f n 1 (pos + t * n)).1 := by
  intro T
  induction T with
  | zero => intro pos t ht; omega
  | succ m ih =>
      intro pos t ht
      cases t with
      | zero => simp [trialLoop]
      | succ s =>
          rw [trialLoop]
          simp only [List.getD_cons_succ]
          rw [ih _ s (by omega), tossLoop_snd, Nat.succ_mul]
          ring_nf

/-- The trial loop only reads the stream on the window it consumes. -/
theorem trialLoop_congr (g₁ g₂ : ℕ → ℚ) (p a b f : ℚ) (n : ℕ) :
    ∀ (T pos : ℕ),
      (∀ k, pos ≤ k → k < pos + T * n → g₁ k = g₂ k) →
      trialLoop g₁ p a b f n T pos = trialLoop g₂ p a b f n T pos := by
  intro T
  induction T with
  | zero => intro pos _; simp [trialLoop]
  | succ m ih =>
      intro pos hg
      have hsm : Nat.succ m * n = m * n + n := Nat.succ_mul m n
      rw [hsm] at hg
      have h1 : tossLoop g₁ p a b f n 1 pos = tossLoop g₂ p a b f n 1 pos := by
        refine tossLoop_congr g₁ g₂ p a b f n 1 pos fun k hk1 hk2 => hg k hk1 ?bound
        omega
      have hrest : ∀ k, pos + n ≤ k → k < (pos + n) + m * n → g₁ k = g₂ k := by
        intro k hk1 hk2
        exact hg k (by omega) (by omega)
      rw [trialLoop, trialLoop, h1, tossLoop_snd,
        ih (pos + n) hrest]

/-- The fraction loop produces one statistics entry per candidate fraction:
no fraction is skipped or rejected. -/
theorem fracLoop_length (g : ℕ → ℚ) (n : ℕ) (p : ℚ) (T : ℕ) (a b : ℚ) :
    ∀ (fs : List ℚ) (pos : ℕ), (fracLoop g n p T a b fs pos).1.length = fs.length := by
  intro fs
  induction fs with
  | nil => intro pos; simp [fracLoop]
  | cons f rest ih => intro pos; simp [fracLoop, ih]

/-- The fraction loop advances the stream position by `T * n` per fraction. -/
theorem fracLoop_snd (g : ℕ → ℚ) (n : ℕ) (p : ℚ) (T : ℕ) (a b : ℚ) :
    ∀ (fs : List ℚ) (pos : ℕ),
      (fracLoop g n p T a b fs pos).2 = pos + fs.length * (T * n) := by
  intro fs
  induction fs with
  | nil => intro pos; simp [fracLoop]
  | cons f rest ih =>
      intro pos
      rw [fracLoop, ih, trialLoop_snd]
      simp [List.length_cons, Nat.succ_mul]
      omega

/-- The fraction loop only reads the stream on the window it consumes. -/
theorem fracLoop_congr (g₁ g₂ : ℕ → ℚ) (n : ℕ) (p : ℚ) (T : ℕ) (a b : ℚ) :
    ∀ (fs : List ℚ) (pos : ℕ),
      (∀ k, pos ≤ k → k < pos + fs.length * (T * n) → g₁ k = g₂ k) →
      fracLoop g₁ n p T a b fs pos = fracLoop g₂ n p T a b fs pos := by
  intro fs
  induction fs with
  | nil => intro pos _; simp [fracLoop]
  | cons f rest ih =>
      intro pos hg
      have hsm : (f :: rest).length * (T * n) = rest.length * (T * n) + T * n := by
        rw [List.length_cons, Nat.succ_mul]
      rw [hsm] at hg
      have h1 : trialLoop g₁ p a b f n T pos = trialLoop g₂ p a b f n T pos := by
        refine trialLoop_congr g₁ g₂ p a b f n T pos fun k hk1 hk2 => hg k hk1 ?bound
        omega
      have hrest : ∀ k, pos + T * n ≤ k →
          k < (pos + T * n) + rest.length * (T * n) → g₁ k = g₂ k := by
        intro k hk1 hk2
        exact hg k (by omega) (by omega)
      rw [fracLoop, fracLoop, finalWealths, finalWealths, h1, trialLoop_snd,
        ih (pos + T * n) hrest]

/-- Entry `i` of the fraction loop is the smoothed-percentile triple of the
final wealth sample of fraction `i`, whose trials start at stream position
`pos + i * (T * n)`. -/
theorem fracLoop_getD (g : ℕ → ℚ) (n : ℕ) (p : ℚ) (T : ℕ) (a b : ℚ) :
    ∀ (fs : List ℚ) (pos i : ℕ), i < fs.length →
      (fracLoop g n p T a b fs pos).1.getD i (0, 0, 0) =
        statsSpec (finalWealths g p a b (fs.getD i 0) n T (pos + i * (T * n))) := by
  intro fs
  induction fs with
  | nil => intro pos i hi; simp at hi
  | cons f rest ih =>
      intro pos i hi
      cases i with
      | zero => simp [fracLoop, statsSpec]
      | succ s =>
          rw [fracLoop]
          simp only [List.getD_cons_succ]
          rw [ih _ s (by simpa using hi), trialLoop_snd, Nat.succ_mul]
          ring_nf

/-- In a `≤`-sorted list, `getD` with default `0` is monotone on in-range
indices. -/
theorem sorted_getD_mono (s : List ℚ) (hs : List.Sorted (· ≤ ·) s) {i j : ℕ}
    (hij : i ≤ j) (hj : j < s.length) : s.getD i 0 ≤ s.getD j 0 := by
  have hi : i < s.length := lt_of_le_of_lt hij hj
  rw [List.getD_eq_get s 0 hi, List.getD_eq_get s 0 hj]
  exact hs.rel_get_of_le (Fin.mk_le_mk.mpr hij)

/-- For `0 ≤ h`, the natural floor of `h` casts back to `⌊h⌋`. -/
theorem toNat_floor_cast {h : ℚ} (h0 : 0 ≤ h) :
    ((Int.toNat ⌊h⌋ : ℕ) : ℚ) = (⌊h⌋ : ℚ) := by
  have : ((Int.toNat ⌊h⌋ : ℕ) : ℤ) = ⌊h⌋ := Int.toNat_of_nonneg (Int.floor_nonneg.mpr h0)
  exact_mod_cast congrArg (fun z : ℤ => (z : ℚ)) this

/-- For `0 ≤ h ≤ m - 1`, the natural floor index of `h` is at most `m - 1`. -/
theorem toNat_floor_le {h : ℚ} {m : ℕ} (h0 : 0 ≤ h) (hle : h ≤ ((m - 1 : ℕ) : ℚ)) :
    Int.toNat ⌊h⌋ ≤ m - 1 := by
  have h1 : ⌊h⌋ ≤ ⌊((m - 1 : ℕ) : ℚ)⌋ := Int.floor_le_floor hle
  rw [Int.floor_natCast] at h1
  omega

/-- The interpolated value is at least the value at the lower index. -/
theorem interp_ge (s : List ℚ) (m : ℕ) (hs : List.Sorted (· ≤ ·) s)
    (hm : s.length = m) (hm1 : 1 ≤ m) {h : ℚ} (h0 : 0 ≤ h)
    (hle : h ≤ ((m - 1 : ℕ) : ℚ)) :
    s.getD (Int.toNat ⌊h⌋) 0 ≤ interp s m h := by
  have hlo : Int.toNat ⌊h⌋ ≤ m - 1 := toNat_floor_le h0 hle
  have hhi : min (Int.toNat ⌊h⌋ + 1) (m - 1) < s.length := by omega
  have hd : s.getD (Int.toNat ⌊h⌋) 0 ≤ s.getD (min (Int.toNat ⌊h⌋ + 1) (m - 1)) 0 :=
    sorted_getD_mono s hs (by omega) hhi
  have hfrac : 0 ≤ h - ((Int.toNat ⌊h⌋ : ℕ) : ℚ) := by
    rw [toNat_floor_cast h0]
    linarith [Int.floor_le h]
  rw [interp]
  nlinarith

/-- The interpolated value is at most the value at the upper index. -/
theorem interp_le (s : List ℚ) (m : ℕ) (hs : List.Sorted (· ≤ ·) s)
    (hm : s.length = m) (hm1 : 1 ≤ m) {h : ℚ} (h0 : 0 ≤ h)
    (hle : h ≤ ((m - 1 : ℕ) : ℚ)) :
    interp s m h ≤ s.getD (min (Int.toNat ⌊h⌋ + 1) (m - 1)) 0 := by
  have hlo : Int.toNat ⌊h⌋ ≤ m - 1 := toNat_floor_le h0 hle
  have hhi : min (Int.toNat ⌊h⌋ + 1) (m - 1) < s.length := by omega
  have hd : s.getD (Int.toNat ⌊h⌋) 0 ≤ s.getD (min (Int.toNat ⌊h⌋ + 1) (m - 1)) 0 :=
    sorted_getD_mono s hs (by omega) hhi
  have hfrac : h - ((Int.toNat ⌊h⌋ : ℕ) : ℚ) ≤ 1 := by
    rw [toNat_floor_cast h0]
    linarith [Int.lt_floor_add_one h]
  rw [interp]
  nlinarith

/-- Linear interpolation over a sorted sample is monotone in the virtual
index. -/
theorem interp_mono (s : List ℚ) (m : ℕ) (hs : List.Sorted (· ≤ ·) s)
    (hm : s.length = m) {h₁ h₂ : ℚ} (h0 : 0 ≤ h₁) (h12 : h₁ ≤ h₂)
    (hle : h₂ ≤ ((m - 1 : ℕ) : ℚ)) : interp s m h₁ ≤ interp s m h₂ := by
  rcases Nat.eq_zero_or_pos m with hm0 | hm1
  · have hz : ((m - 1 : ℕ) : ℚ) = 0 := by
      rw [hm0]; norm_num
    have heq : h₁ = h₂ := le_antisymm h12 (by rw [hz] at hle; linarith)
    rw [heq]
  · have h02 : 0 ≤ h₂ := le_trans h0 h12
    have h1le : h₁ ≤ ((m - 1 : ℕ) : ℚ) := le_trans h12 hle
    have hmono : Int.toNat ⌊h₁⌋ ≤ Int.toNat ⌊h₂⌋ :=
      Int.toNat_le_toNat (Int.floor_le_floor h12)
    rcases lt_or_eq_of_le hmono with hlt | heq
    · have step1 : interp s m h₁ ≤ s.getD (min (Int.toNat ⌊h₁⌋ + 1) (m - 1)) 0 :=
        interp_le s m hs hm hm1 h0 h1le
      have hi2 : Int.toNat ⌊h₂⌋ ≤ m - 1 := toNat_floor_le h02 hle
      have step2 : s.getD (min (Int.toNat ⌊h₁⌋ + 1) (m - 1)) 0 ≤
          s.getD (Int.toNat ⌊h₂⌋) 0 :=
        sorted_getD_mono s hs (by omega) (by omega)
      have step3 : s.getD (Int.toNat ⌊h₂⌋) 0 ≤ interp s m h₂ :=
        interp_ge s m hs hm hm1 h02 hle
      linarith
    · have hlo1 : Int.toNat ⌊h₁⌋ ≤ m - 1 := toNat_floor_le h0 h1le
      have hhi : min (Int.toNat ⌊h₁⌋ + 1) (m - 1) < s.length := by omega
      have hd : s.getD (Int.toNat ⌊h₁⌋) 0 ≤ s.getD (min (Int.toNat ⌊h₁⌋ + 1) (m - 1)) 0 :=
        sorted_getD_mono s hs (by omega) hhi
      rw [interp, interp, ← heq]
      have hstep : (h₁ - ((Int.toNat ⌊h₁⌋ : ℕ) : ℚ)) *
            (s.getD (min (Int.toNat ⌊h₁⌋ + 1) (m - 1)) 0 - s.getD (Int.toNat ⌊h₁⌋) 0) ≤
          (h₂ - ((Int.toNat ⌊h₁⌋ : ℕ) : ℚ)) *
            (s.getD (min (Int.toNat ⌊h₁⌋ + 1) (m - 1)) 0 - s.getD (Int.toNat ⌊h₁⌋) 0) := by
        apply mul_le_mul_of_nonneg_right (by linarith) (by linarith)
      linarith

/-- The empirical percentile (numpy linear interpolation) is monotone in the
rank, on the same sample. -/
theorem percentile_mono (xs : List ℚ) {q₁ q₂ : ℚ} (h0 : 0 ≤ q₁) (h12 : q₁ ≤ q₂)
    (h100 : q₂ ≤ 100) : percentile xs q₁ ≤ percentile xs q₂ := by
  have hc : (0 : ℚ) ≤ ((xs.length - 1 : ℕ) : ℚ) := Nat.cast_nonneg _
  rw [percentile, percentile]
  apply interp_mono _ _ (List.sorted_insertionSort _ xs) (by rw [List.length_insertionSort])
  · exact div_nonneg (mul_nonneg hc h0) (by norm_num)
  · exact (div_le_div_right (by norm_num : (0:ℚ) < 100)).mpr
      (mul_le_mul_of_nonneg_left h12 hc)
  · rw [div_le_iff (by norm_num : (0:ℚ) < 100)]
    exact mul_le_mul_of_nonneg_left h100 hc

/-- With `f = 0` both multipliers equal `1`, so the toss loop returns its
starting wealth unchanged. -/
theorem tossLoop_f_zero (g : ℕ → ℚ) (p a b : ℚ) :
    ∀ (j : ℕ) (w : ℚ) (pos : ℕ), tossLoop g p a b 0 j w pos = (w, pos + j) := by
  intro j
  induction j with
  | zero => intro w pos; simp [tossLoop]
  | succ m ih =>
      intro w pos
      by_cases h : g pos < p <;> simp [tossLoop, h, ih] <;> omega

/-- With `f = 0` every trial's final wealth is exactly `1`. -/
theorem trialLoop_f_zero (g : ℕ → ℚ) (p a b : ℚ) (n : ℕ) :
    ∀ (T pos : ℕ), (trialLoop g p a b 0 n T pos).1 = List.replicate T 1 := by
  intro T
  induction T with
  | zero => intro pos; simp [trialLoop]
  | succ m ih =>
      intro pos
      simp [trialLoop, tossLoop_f_zero, ih, List.replicate_succ]

/-- Under `0 ≤ f`, `b*f < 1` and `0 < a` both multipliers are positive, so
the toss loop preserves positivity of wealth. -/
theorem tossLoop_pos (g : ℕ → ℚ) (p a b f : ℚ) (hf : 0 ≤ f) (hbf : b * f < 1)
    (ha : 0 < a) :
    ∀ (j : ℕ) (w : ℚ) (pos : ℕ), 0 < w → 0 < (tossLoop g p a b f j w pos).1 := by
  intro j
  induction j with
  | zero => intro w pos hw; simpa [tossLoop] using hw
  | succ m ih =>
      intro w pos hw
      have hwin : 0 < 1 + a * f := by nlinarith
      have hloss : 0 < 1 - b * f := by linarith
      by_cases h : g pos < p
      · rw [tossLoop, if_pos h]
        exact ih _ _ (mul_pos hw hwin)
      · rw [tossLoop, if_neg h]
        exact ih _ _ (mul_pos hw hloss)

/-- The toss loop decomposes: the state after `j + k` tosses is reached by
running `k` more tosses from the state after the first `j` tosses, so the
`j`-toss states are exactly the intermediate states of a longer run. -/
theorem tossLoop_add (g : ℕ → ℚ) (p a b f : ℚ) :
    ∀ (j k : ℕ) (w : ℚ) (pos : ℕ),
      tossLoop g p a b f (j + k) w pos =
        tossLoop g p a b f k (tossLoop g p a b f j w pos).1
          (tossLoop g p a b f j w pos).2 := by
  intro j
  induction j with
  | zero => intro k w pos; simp [tossLoop]
  | succ m ih =>
      intro k w pos
      have hadd : Nat.succ m + k = Nat.succ (m + k) := by omega
      rw [hadd]
      by_cases h : g pos < p
      · simp only [tossLoop, if_pos h]
        exact ih k _ _
      · simp only [tossLoop, if_neg h]
        exact ih k _ _

/-- Every entry of the fraction loop has its three smoothed percentile
statistics in nondecreasing order. -/
theorem fracLoop_ordered (g : ℕ → ℚ) (n : ℕ) (p : ℚ) (T : ℕ) (a b : ℚ) :
    ∀ (fs : List ℚ) (pos : ℕ),
      ((fracLoop g n p T a b fs pos).1).Forall
        fun e => e.1 ≤ e.2.1 ∧ e.2.1 ≤ e.2.2 := by
  intro fs
  induction fs with
  | nil => intro pos; simp [fracLoop]
  | cons f rest ih =>
      intro pos
      rw [fracLoop]
      simp only [List.forall_cons]
      refine ⟨⟨?lo, ?mid⟩, ih _⟩
      · gcongr <;>
          exact percentile_mono _ (by norm_num) (by norm_num) (by norm_num)
      · gcongr <;>
          exact percentile_mono _ (by norm_num) (by norm_num) (by norm_num)

/-- A stream that agrees with `gNine` on its first two draws only, used to
witness determinism. -/
def gAlt : ℕ → ℚ := fun k => if k < 2 then 9 / 10 else 0

/-- Counterexample to C1: for `b = 1`, `f = 2` (so `b*f = 2 ≥ 1`) the
simulator does not fail and skips nothing: it simulates the trial (whose
final wealth is the negative value `-1`, impossible if the fraction had been
rejected before any trial) and returns an ordinary statistics entry for it.
There is no `InvalidFraction` condition anywhere in the code. -/
theorem c1_counterexample :
    simulate_kelly_distribution 1 (1/2) 1 [2] 1 1 gNine = [(-1, -1, -1)] ∧
    finalWealths gNine (1/2) 1 1 2 1 1 0 = [-1] ∧
    ((1 : ℚ) * 2 ≥ 1) := by
  refine ⟨?sim, ?fw, by norm_num⟩
  · norm_num [simulate_kelly_distribution, fracLoop, finalWealths, trialLoop,
      tossLoop, gNine, percentile, interp]
  · norm_num [finalWealths, trialLoop, tossLoop, gNine]

/-- C1 (amended): the simulator performs no fraction validation.  Even when
`b*f ≥ 1` it returns a statistics entry for every fraction (no failure, no
abort), and trials are simulated: a loss draw multiplies wealth `1` by
`1 - b*f ≤ 0`, making it non-positive. -/
theorem c1_no_fraction_validation (g : ℕ → ℚ) (p a b f : ℚ) (n T pos : ℕ)
    (fv : List ℚ) (hbf : 1 ≤ b * f) (hloss : ¬ g pos < p) :
    (simulate_kelly_distribution n p T fv a b g).length = fv.length ∧
    (tossLoop g p a b f 1 1 pos).1 ≤ 0 := by
  constructor
  · rw [simulate_kelly_distribution, fracLoop_length]
  · rw [tossLoop_fst_eq_foldl]
    have h1 : List.range 1 = [0] := rfl
    simp only [h1, List.map_cons, List.map_nil, List.foldl_cons,
      List.foldl_nil, Nat.add_zero]
    rw [if_neg (by simpa using hloss)]
    linarith

/-- Witness for C1 (amended) at `b = 1`, `f = 2`, a losing first draw. -/
theorem c1_no_fraction_validation_witness :
    (simulate_kelly_distribution 1 (1/2) 1 [2] 1 1 gNine).length =
      [(2 : ℚ)].length ∧
    (tossLoop gNine (1/2) 1 1 2 1 1 0).1 ≤ 0 :=
  c1_no_fraction_validation gNine (1/2) 1 1 2 1 1 0 [2] (by norm_num)
    (by norm_num [gNine])

/-- C2: for every scenario, fraction `f`, stream position and trial `t < T`:
the trial loop retains exactly one value per trial (`length = T`), and the
value retained for trial `t` is the final value of a trajectory that starts
at `1.0` and is multiplied by `(1 + a*f)` on each win draw (`rand < p`) and
by `(1 - b*f)` on each loss draw, for exactly the `n` independent draws of
that trial's stream window. -/
theorem c2_trial_trajectory (g : ℕ → ℚ) (p a b f : ℚ) (n T pos t : ℕ)
    (ht : t < T) :
    (finalWealths g p a b f n T pos).length = T ∧
    (finalWealths g p a b f n T pos).getD t 0 =
      trialWealthSpec a b f
        ((List.range n).map fun k => decide (g (pos + t * n + k) < p)) := by
  constructor
  · exact trialLoop_length g p a b f n T pos
  · rw [finalWealths, trialLoop_getD g p a b f n T pos t ht,
      tossLoop_fst_eq_foldl]
    rfl

/-- Witness for C2 at a concrete scenario (`n = 2`, `T = 3`, trial `t = 1`). -/
theorem c2_trial_trajectory_witness :
    (finalWealths gNine (1/2) 1 1 (1/2) 2 3 0).length = 3 ∧
    (finalWealths gNine (1/2) 1 1 (1/2) 2 3 0).getD 1 0 =
      trialWealthSpec 1 1 (1/2)
        ((List.range 2).map fun k => decide (gNine (0 + 1 * 2 + k) < 1/2)) :=
  c2_trial_trajectory gNine (1/2) 1 1 (1/2) 2 3 0 1 (by norm_num)

/-- C3: entry `i` of the simulator's result table is exactly the triple of
smoothed statistics of fraction `i`'s final wealth sample: the low statistic
is the mean of the empirical 5th/10th/15th percentiles, the mid statistic
the mean of the 45th/50th/55th, and the high statistic the mean of the
85th/90th/95th. -/
theorem c3_smoothed_percentile_stats (n : ℕ) (p : ℚ) (T : ℕ) (fv : List ℚ)
    (a b : ℚ) (g : ℕ → ℚ) (i : ℕ) (hi : i < fv.length) :
    (simulate_kelly_distribution n p T fv a b g).getD i (0, 0, 0) =
      statsSpec (finalWealths g p a b (fv.getD i 0) n T (i * (T * n))) := by
  rw [simulate_kelly_distribution, fracLoop_getD g n p T a b fv 0 i hi,
    Nat.zero_add]

/-- Witness for C3 at a concrete scenario with two fractions, entry `i = 1`. -/
theorem c3_smoothed_percentile_stats_witness :
    (simulate_kelly_distribution 1 (1/2) 1 [1/2, 1/4] 1 1 gNine).getD 1
        (0, 0, 0) =
      statsSpec (finalWealths gNine (1/2) 1 1 ([(1:ℚ)/2, 1/4].getD 1 0) 1 1
        (1 * (1 * 1))) :=
  c3_smoothed_percentile_stats 1 (1/2) 1 [1/2, 1/4] 1 1 gNine 1 (by norm_num)

/-- C4: the simulator is a deterministic pure function of the scenario and
the random stream; its output depends only on the prefix of the stream it
consumes, so two runs with the same seed (hence the same stream) produce
identical result tables. -/
theorem c4_determinism (n : ℕ) (p : ℚ) (T : ℕ) (fv : List ℚ) (a b : ℚ)
    (g₁ g₂ : ℕ → ℚ) (hg : ∀ k, k < fv.length * (T * n) → g₁ k = g₂ k) :
    simulate_kelly_distribution n p T fv a b g₁ =
      simulate_kelly_distribution n p T fv a b g₂ := by
  rw [simulate_kelly_distribution, simulate_kelly_distribution,
    fracLoop_congr g₁ g₂ n p T a b fv 0 (fun k hk1 hk2 => hg k (by omega))]

/-- Witness for C4: two streams that agree on the two consumed draws give
identical outputs. -/
theorem c4_determinism_witness :
    simulate_kelly_distribution 2 (1/2) 1 [1/2] 1 1 gNine =
      simulate_kelly_distribution 2 (1/2) 1 [1/2] 1 1 gAlt :=
  c4_determinism 2 (1/2) 1 [1/2] 1 1 gNine gAlt (by
    intro k hk
    norm_num at hk
    simp [gNine, gAlt, hk])

/-- C5: for `f = 0` (and any `p ∈ [0,1]`, `a > 0`, `b > 0`, `n > 0`) the
final wealth of every trial is exactly `1.0`. -/
theorem c5_zero_fraction (g : ℕ → ℚ) (p a b : ℚ) (n T pos : ℕ)
    (hp0 : 0 ≤ p) (hp1 : p ≤ 1) (ha : 0 < a) (hb : 0 < b) (hn : 0 < n) :
    finalWealths g p a b 0 n T pos = List.replicate T 1 := by
  rw [finalWealths, trialLoop_f_zero]

/-- Witness for C5 at a concrete scenario. -/
theorem c5_zero_fraction_witness :
    finalWealths gNine (1/2) 1 1 0 2 2 0 = List.replicate 2 1 :=
  c5_zero_fraction gNine (1/2) 1 1 2 2 0 (by norm_num) (by norm_num)
    (by norm_num) (by norm_num) (by norm_num)

/-- C6: the closed-form Kelly fraction is `(p*a - (1-p)*b) / (a*b)`, and for
nonzero `a`, `b` it satisfies `p*a - (1-p)*b = f* * a * b` exactly. -/
theorem c6_kelly_closed_form (p a b : ℚ) (ha : a ≠ 0) (hb : b ≠ 0) :
    kelly_fraction p a b = (p * a - (1 - p) * b) / (a * b) ∧
    p * a - (1 - p) * b = kelly_fraction p a b * a * b := by
  refine ⟨rfl, ?id⟩
  rw [kelly_fraction]
  field_simp
  ring

/-- Witness for C6 at `p = 1/2`, `a = b = 1`. -/
theorem c6_kelly_closed_form_witness :
    kelly_fraction (1/2) 1 1 = ((1/2) * 1 - (1 - 1/2) * 1) / (1 * 1) ∧
    (1/2) * 1 - (1 - 1/2) * 1 = kelly_fraction (1/2) 1 1 * 1 * 1 :=
  c6_kelly_closed_form (1/2) 1 1 (by norm_num) (by norm_num)

/-- Counterexample to C7: at `p = 0.55`, `a = 0.85`, `b = 0.65` the function
returns `70/221 ≈ 0.3167`, which is not approximately `0.1925` (it differs
by more than `0.1`). -/
theorem c7_counterexample :
    kelly_fraction (11/20) (17/20) (13/20) = 70/221 ∧
    ¬ |kelly_fraction (11/20) (17/20) (13/20) - 1925/10000| < 1/10 := by
  constructor
  · rw [kelly_fraction]; norm_num
  · intro hcon
    rw [kelly_fraction, abs_lt] at hcon
    norm_num at hcon

/-- C7 (amended): at `p = 0.55`, `a = 0.85`, `b = 0.65` the closed-form
Kelly fraction is exactly `70/221`, approximately `0.3167` (the spec's
example miscomputes the final quotient `0.175 / 0.5525`). -/
theorem c7_kelly_value :
    kelly_fraction (11/20) (17/20) (13/20) = 70/221 ∧
    |(70/221 : ℚ) - 3167/10000| < 1/1000 := by
  constructor
  · rw [kelly_fraction]; norm_num
  · rw [abs_lt]; constructor <;> norm_num

/-- Counterexample to C8: at the malformed configuration `n = 0` (a
non-positive number of rounds) the simulator does not fail with any
condition: it computes and returns an ordinary result table. -/
theorem c8_counterexample :
    simulate_kelly_distribution 0 (1/2) 1 [1/2] 1 1 gNine = [(1, 1, 1)] := by
  norm_num [simulate_kelly_distribution, fracLoop, finalWealths, trialLoop,
    tossLoop, gNine, percentile, interp]

/-- C8 (amended): the simulator performs no configuration validation: there
is no InvalidScenario condition in the code.  For every configuration with
at least one trial (`T ≥ 1`), malformed ones included (e.g. `n = 0` rounds,
`p` outside `[0,1]`, or non-positive `a` or `b`), it computes and returns a
result table with one statistics entry per candidate fraction instead of
failing.  (At `T = 0` the code does abort, but with numpy's empty-sample
error from `np.percentile`, not an `InvalidScenario` condition; that error
path is outside this embedding, which is faithful for `T ≥ 1`.) -/
theorem c8_no_scenario_validation (n : ℕ) (p : ℚ) (T : ℕ) (fv : List ℚ)
    (a b : ℚ) (g : ℕ → ℚ) (hT : 1 ≤ T) :
    (simulate_kelly_distribution n p T fv a b g).length = fv.length := by
  rw [simulate_kelly_distribution, fracLoop_length]

/-- Witness for C8 (amended) at a doubly malformed configuration with one
trial: `n = 0` rounds and win probability `p = 2` outside `[0,1]`. -/
theorem c8_no_scenario_validation_witness :
    (simulate_kelly_distribution 0 2 1 [1/2] 1 1 gNine).length =
      [(1 : ℚ)/2].length :=
  c8_no_scenario_validation 0 2 1 [1/2] 1 1 gNine (by norm_num)

/-- C9: for `0 ≤ f`, `b*f < 1` and `a > 0`, every intermediate and final
wealth value of a trial is strictly positive: the wealth after any number
`j` of tosses from the start value `1` is positive, and by the decomposition
conjunct these are exactly the intermediate states of the `n`-toss run. -/
theorem c9_wealth_positive (g : ℕ → ℚ) (p a b f : ℚ) (hf : 0 ≤ f)
    (hbf : b * f < 1) (ha : 0 < a) :
    (∀ (j pos : ℕ), 0 < (tossLoop g p a b f j 1 pos).1) ∧
    (∀ (j k : ℕ) (w : ℚ) (pos : ℕ),
      tossLoop g p a b f (j + k) w pos =
        tossLoop g p a b f k (tossLoop g p a b f j w pos).1
          (tossLoop g p a b f j w pos).2) :=
  ⟨fun j pos => tossLoop_pos g p a b f hf hbf ha j 1 pos one_pos,
   fun j k w pos => tossLoop_add g p a b f j k w pos⟩

/-- Witness for C9 at a concrete scenario, three tosses. -/
theorem c9_wealth_positive_witness :
    0 < (tossLoop gNine (1/2) 1 1 (1/2) 3 1 0).1 :=
  (c9_wealth_positive gNine (1/2) 1 1 (1/2) (by norm_num) (by norm_num)
    (by norm_num)).1 3 0

/-- C10: in every entry of the simulator's result table the three smoothed
statistics are ordered: low ≤ mid ≤ high, because each is a mean of
empirical percentiles at increasing ranks over the same sample. -/
theorem c10_stat_ordering (n : ℕ) (p : ℚ) (T : ℕ) (fv : List ℚ) (a b : ℚ)
    (g : ℕ → ℚ) :
    (simulate_kelly_distribution n p T fv a b g).Forall
      fun e => e.1 ≤ e.2.1 ∧ e.2.1 ≤ e.2.2 :=
  fracLoop_ordered g n p T a b fv 0

end KellyFinite
